import Mathlib

/-!
Verification of the graphlet-utilities module: a shallow embedding of the
graph data model and of the functions `find_all_graphlets`,
`rooted_is_isomorphic`, `find_subgraphs_containing_vertex` and
`calculate_subplot_grid`, together with proofs of the specified properties.

Graphs are embedded as a list of vertices plus a list of undirected edges
(vertex pairs, read symmetrically), mirroring the library graph objects the
code builds.  The connectivity test and the isomorphism-mapping oracle the
code delegates to an external graph library are modelled executably:
connectivity by bounded breadth-first expansion, and the oracle by
enumerating all vertex bijections (association lists pairing the first
graph's vertex list with permutations of the second's) and keeping the
adjacency-preserving ones.  Failures (Python exceptions) are modelled with
`Except String`.
-/

deriving instance DecidableEq for Except

namespace GraphletUtilities

variable {V : Type} [DecidableEq V] {α : Type}

/-- A graph: a vertex list plus an edge list of unordered vertex pairs. -/
structure Graph (V : Type) where
  vertices : List V
  edges : List (V × V)
deriving DecidableEq

/-- Adjacency: an edge is stored in either orientation. -/
def adjB (G : Graph V) (u v : V) : Bool :=
  decide ((u, v) ∈ G.edges) || decide ((v, u) ∈ G.edges)

/-- One breadth-first expansion step: add every vertex adjacent to the
current front.  Models one layer of the library's connectivity search. -/
def expand (G : Graph V) (s : List V) : List V :=
  s ++ G.vertices.filter (fun u => !(decide (u ∈ s)) && s.any (fun w => adjB G w u))

/-- Iterated expansion. -/
def reachN (G : Graph V) : ℕ → List V → List V
  | 0, s => s
  | n + 1, s => reachN G n (expand G s)

/-- Model of the library connectivity test `is_connected`: every vertex is
reachable from the first one within `|V|` expansion steps. -/
def is_connected (G : Graph V) : Bool :=
  match G.vertices with
  | [] => false
  | v :: _ => G.vertices.all (fun u => decide (u ∈ reachN G G.vertices.length [v]))

/-- `itertools.combinations(l, 2)` in its generation order. -/
def pairsOf : List V → List (V × V)
  | [] => []
  | x :: xs => xs.map (fun y => (x, y)) ++ pairsOf xs

/-- Select the sublist whose positions are the set bits of `i`
(bit `j` selects element `j`), exactly like the bitmask loop
`[pe[j] for j in range(len(pe)) if (i >> j) & 1]`. -/
def maskSelect : List α → ℕ → List α
  | [], _ => []
  | x :: xs, i => (if i % 2 = 1 then [x] else []) ++ maskSelect xs (i / 2)

/-- All `2^C(n,2)` graphs on the vertex list `nodes`, in bitmask order. -/
def allGraphsOn (nodes : List V) : List (Graph V) :=
  (List.range (2 ^ (pairsOf nodes).length)).map
    (fun i => ⟨nodes, maskSelect (pairsOf nodes) i⟩)

/-- The connected ones, in generation order. -/
def connectedGraphsOn (nodes : List V) : List (Graph V) :=
  (allGraphsOn nodes).filter (fun G => is_connected G)

/-- Association-list lookup; models a Python dict lookup (first matching
key; `none` models a `KeyError`). -/
def alookup : List (V × V) → V → Option V
  | [], _ => none
  | (a, b) :: m, v => if v = a then some b else alookup m v

/-- The function computed by a mapping (identity off its key set). -/
def applyMap (m : List (V × V)) (v : V) : V := (alookup m v).getD v

/-- Does the mapping preserve adjacency and non-adjacency on `G1`'s
vertices?  This is the acceptance test of the isomorphism oracle. -/
def isIsoMapping (G1 G2 : Graph V) (m : List (V × V)) : Bool :=
  G1.vertices.all fun u => G1.vertices.all fun v =>
    adjB G1 u v == adjB G2 (applyMap m u) (applyMap m v)

/-- Insert `x` at every position of `l`. -/
def insertEverywhere (x : α) : List α → List (List α)
  | [] => [[x]]
  | y :: ys => (x :: y :: ys) :: (insertEverywhere x ys).map (fun t => y :: t)

/-- All permutations of a list (structurally recursive, so that the
enumeration evaluates on concrete inputs). -/
def perms : List α → List (List α)
  | [] => [[]]
  | x :: xs => (perms xs).flatMap (insertEverywhere x)

/-- All bijections between two vertex lists, as association lists. -/
def allBijections (l1 l2 : List V) : List (List (V × V)) :=
  if l1.length = l2.length then (perms l2).map (fun p => l1.zip p) else []

/-- Model of the oracle's lazy sequence of all isomorphism mappings. -/
def isomorphismMappings (G1 G2 : Graph V) : List (List (V × V)) :=
  (allBijections G1.vertices G2.vertices).filter (fun m => isIsoMapping G1 G2 m)

/-- The mapping loop of `rooted_is_isomorphic`: scan the mappings for one
with `mapping[root] == root`; a failed dict lookup is a `KeyError`. -/
def findRoot (root : V) : List (List (V × V)) → Except String Bool
  | [] => .ok false
  | m :: rest =>
    match alookup m root with
    | none => .error "KeyError"
    | some w => if w = root then .ok true else findRoot root rest

/-- `rooted_is_isomorphic(G1, G2, root)`: if the graphs are isomorphic at
all, look for a mapping fixing the root; otherwise return false. -/
def rooted_is_isomorphic (G1 G2 : Graph V) (root : V) : Except String Bool :=
  if (isomorphismMappings G1 G2).isEmpty then .ok false
  else findRoot root (isomorphismMappings G1 G2)

/-- Pure value of `rooted_is_isomorphic` on inputs where no lookup fails. -/
def rootedIsoB (G1 G2 : Graph V) (root : V) : Bool :=
  (isomorphismMappings G1 G2).any (fun m => decide (alookup m root = some root))

/-- Python's `any(...)` over a generator that may raise: short-circuit on
the first `true`, propagate the first failure. -/
def anyExcept (f : α → Except String Bool) : List α → Except String Bool
  | [] => .ok false
  | a :: as =>
    match f a with
    | .error e => .error e
    | .ok true => .ok true
    | .ok false => anyExcept f as

/-- The deduplication loop of `find_all_graphlets`: keep a graph iff it is
rooted-isomorphic to no previously kept representative. -/
def dedupLoop (root : V) : List (Graph V) → List (Graph V) → Except String (List (Graph V))
  | [], unique => .ok unique
  | G :: rest, unique =>
    match anyExcept (fun H => rooted_is_isomorphic G H root) unique with
    | .error e => .error e
    | .ok true => dedupLoop root rest unique
    | .ok false => dedupLoop root rest (unique ++ [G])

/-- `find_all_graphlets(nodes, root)`: generate every edge subset, keep the
connected graphs, deduplicate by rooted isomorphism. -/
def find_all_graphlets (nodes : List V) (root : V) : Except String (List (Graph V)) :=
  dedupLoop root (connectedGraphsOn nodes) []

/-- Pure counterpart of the deduplication loop. -/
def dedupPure (root : V) : List (Graph V) → List (Graph V) → List (Graph V)
  | [], unique => unique
  | G :: rest, unique =>
    if unique.any (fun H => rootedIsoB G H root) then dedupPure root rest unique
    else dedupPure root rest (unique ++ [G])

/-- Pure value of `find_all_graphlets` on inputs where no lookup fails. -/
def findAllPure (nodes : List V) (root : V) : List (Graph V) :=
  dedupPure root (connectedGraphsOn nodes) []

/-- `itertools.combinations(l, n)` in its generation order. -/
def combinationsL : ℕ → List α → List (List α)
  | 0, _ => [[]]
  | _ + 1, [] => []
  | n + 1, x :: xs => (combinationsL n xs).map (fun s => x :: s) ++ combinationsL (n + 1) xs

/-- `G.subgraph(s)`: the induced subgraph, keeping every edge of `G` whose
two endpoints lie in `s`. -/
def inducedSubgraph (G : Graph V) (s : List V) : Graph V :=
  ⟨s, G.edges.filter (fun e => decide (e.1 ∈ s) && decide (e.2 ∈ s))⟩

/-- `find_subgraphs_containing_vertex(G, size, vertex)`: for each
`size`-combination of `G`'s vertices that contains `vertex`, keep the
induced subgraph when it is a single vertex or connected. -/
def find_subgraphs_containing_vertex (G : Graph V) (size : ℕ) (vertex : V) :
    List (Graph V) :=
  (combinationsL size G.vertices).filterMap fun s =>
    if vertex ∈ s then
      if (inducedSubgraph G s).vertices.length = 1 then some (inducedSubgraph G s)
      else if is_connected (inducedSubgraph G s) then some (inducedSubgraph G s)
      else none
    else none

/-- `calculate_subplot_grid(num_graphs, num_cols)`: reject `num_cols < 1`
with a `ValueError`; dividing by `min num_cols num_graphs = 0` is a
`ZeroDivisionError`; otherwise return the ceiling-division row count and
the actual column count. -/
def calculate_subplot_grid (num_graphs num_cols : ℕ) : Except String (ℕ × ℕ) :=
  if num_cols < 1 then .error "ValueError"
  else
    if min num_cols num_graphs = 0 then .error "ZeroDivisionError"
    else .ok ((num_graphs + min num_cols num_graphs - 1) / min num_cols num_graphs,
              min num_cols num_graphs)

/-- The specification-level notion of a root-fixed isomorphism: `f` maps
`G1`'s vertex list bijectively onto `G2`'s vertex set, preserves adjacency
and non-adjacency between vertices, and fixes the root. -/
def IsRootedIso (G1 G2 : Graph V) (root : V) (f : V → V) : Prop :=
  List.Perm (G1.vertices.map f) G2.vertices ∧
  (∀ u ∈ G1.vertices, ∀ v ∈ G1.vertices, adjB G1 u v = adjB G2 (f u) (f v)) ∧
  f root = root

/-- The transversal property claimed for the Graphlet Enumerator's output
`res` on the vertex list `nodes` with root `root`: every representative is
a connected graph on exactly that vertex set, and every connected loop-free
graph constructible on that vertex set is rooted-isomorphic to exactly one
representative. -/
def GraphletSpec (nodes : List V) (root : V) (res : List (Graph V)) : Prop :=
  (∀ R ∈ res, R.vertices = nodes ∧ is_connected R = true) ∧
  ∀ H : Graph V, H.vertices = nodes →
    (∀ e ∈ H.edges, e.1 ∈ nodes ∧ e.2 ∈ nodes ∧ e.1 ≠ e.2) →
    is_connected H = true →
    ∃! R, R ∈ res ∧ rooted_is_isomorphic H R root = Except.ok true

/-- The property claimed for the Subgraph Extractor: every returned graph
is the connected induced subgraph of some `size`-vertex subset containing
`vertex` and carries exactly the edges of `G` inside that subset, and every
such subset contributes exactly one entry (no isomorphism deduplication). -/
def SubgraphSpec (G : Graph V) (size : ℕ) (vertex : V) : Prop :=
  (∀ S ∈ find_subgraphs_containing_vertex G size vertex,
    ∃ s : List V, s.Sublist G.vertices ∧ s.length = size ∧ vertex ∈ s ∧
      S = inducedSubgraph G s ∧ is_connected S = true ∧
      (∀ u v : V, adjB S u v = (adjB G u v && decide (u ∈ s) && decide (v ∈ s)))) ∧
  ∀ s : List V, s.Sublist G.vertices → s.length = size → vertex ∈ s →
    is_connected (inducedSubgraph G s) = true →
    ((find_subgraphs_containing_vertex G size vertex).countP
      (fun S => decide (S.vertices = s))) = 1

/-- The complete graph on four vertices, `nx.complete_graph(4)`. -/
def K4 : Graph ℕ := ⟨[0, 1, 2, 3], [(0, 1), (0, 2), (0, 3), (1, 2), (1, 3), (2, 3)]⟩

/-- The path A-B-C, `nx.Graph([('A','B'), ('B','C')])`. -/
def pathABC : Graph Char := ⟨['A', 'B', 'C'], [('A', 'B'), ('B', 'C')]⟩

/-- The path A-C-B, `nx.Graph([('A','C'), ('C','B')])` (nodes appear in
insertion order A, C, B). -/
def pathACB : Graph Char := ⟨['A', 'C', 'B'], [('A', 'C'), ('C', 'B')]⟩

/-! ### Lemmas about permutations -/

theorem perm_of_mem_insertEverywhere {x : α} :
    ∀ {l t : List α}, t ∈ insertEverywhere x l → List.Perm t (x :: l) := by
  intro l
  induction l with
  | nil =>
    intro t ht
    have : t = [x] := by simpa [insertEverywhere] using ht
    subst this
    exact List.Perm.refl _
  | cons y ys ih =>
    intro t ht
    rw [show insertEverywhere x (y :: ys)
          = (x :: y :: ys) :: (insertEverywhere x ys).map (fun t => y :: t) from rfl,
      List.mem_cons] at ht
    rcases ht with rfl | ht
    · exact List.Perm.refl _
    · rcases List.mem_map.mp ht with ⟨t0, ht0, rfl⟩
      exact ((ih ht0).cons y).trans (List.Perm.swap x y ys)

theorem append_cons_mem_insertEverywhere (x : α) :
    ∀ (a b : List α), (a ++ x :: b) ∈ insertEverywhere x (a ++ b) := by
  intro a
  induction a with
  | nil =>
    intro b
    cases b with
    | nil => simp [insertEverywhere]
    | cons y ys => simp [insertEverywhere]
  | cons y a ih =>
    intro b
    rw [List.cons_append, List.cons_append,
      show insertEverywhere x (y :: (a ++ b))
        = (x :: y :: (a ++ b)) :: (insertEverywhere x (a ++ b)).map (fun t => y :: t)
      from rfl]
    exact List.mem_cons_of_mem _ (List.mem_map_of_mem _ (ih b))

theorem mem_perms : ∀ {l t : List α}, t ∈ perms l ↔ List.Perm t l := by
  intro l
  induction l with
  | nil =>
    intro t
    constructor
    · intro ht
      have : t = [] := by simpa [perms] using ht
      subst this; exact List.Perm.refl _
    · intro ht
      have : t = [] := ht.eq_nil
      subst this; simp [perms]
  | cons x xs ih =>
    intro t
    constructor
    · intro ht
      rcases List.mem_flatMap.mp ht with ⟨q, hq, hins⟩
      exact (perm_of_mem_insertEverywhere hins).trans (((ih).mp hq).cons x)
    · intro ht
      have hx : x ∈ t := ht.mem_iff.mpr (List.mem_cons_self x xs)
      rcases List.append_of_mem hx with ⟨s1, s2, rfl⟩
      have hmid : List.Perm (x :: (s1 ++ s2)) (s1 ++ x :: s2) := List.perm_middle.symm
      have h2 : List.Perm (s1 ++ s2) xs :=
        (hmid.trans ht).cons_inv
      exact List.mem_flatMap.mpr ⟨s1 ++ s2, ih.mpr h2,
        append_cons_mem_insertEverywhere x s1 s2⟩

/-! ### Lemmas about association-list lookups on zipped lists -/

theorem alookup_cons (a b : V) (m : List (V × V)) (v : V) :
    alookup ((a, b) :: m) v = if v = a then some b else alookup m v := rfl

theorem applyMap_cons_ne {a b v : V} {m : List (V × V)} (h : ¬v = a) :
    applyMap ((a, b) :: m) v = applyMap m v := by
  unfold applyMap
  rw [alookup_cons, if_neg h]

theorem alookup_zip_none {v : V} :
    ∀ {l1 l2 : List V}, v ∉ l1 → alookup (l1.zip l2) v = none := by
  intro l1
  induction l1 with
  | nil => intro l2 _; rfl
  | cons a t ih =>
    intro l2 hv
    cases l2 with
    | nil => rfl
    | cons b q =>
      have hva : ¬v = a := fun h => hv (by rw [h]; exact List.mem_cons_self a t)
      rw [List.zip_cons_cons, alookup_cons, if_neg hva]
      exact ih (fun h => hv (List.mem_cons_of_mem a h))

theorem alookup_zip_isSome {v : V} :
    ∀ {l1 l2 : List V}, l1.length = l2.length → v ∈ l1 →
      ∃ w, alookup (l1.zip l2) v = some w ∧ w ∈ l2 := by
  intro l1
  induction l1 with
  | nil => intro l2 _ hv; exact absurd hv (List.not_mem_nil v)
  | cons a t ih =>
    intro l2 hlen hv
    cases l2 with
    | nil => exact absurd hlen (by simp)
    | cons b q =>
      by_cases hva : v = a
      · refine ⟨b, ?_, List.mem_cons_self b q⟩
        rw [List.zip_cons_cons, alookup_cons, if_pos hva]
      · have hv' : v ∈ t := by
          rcases List.mem_cons.mp hv with h | h
          · exact absurd h hva
          · exact h
        rcases ih (by simpa using hlen) hv' with ⟨w, hw, hwq⟩
        refine ⟨w, ?_, List.mem_cons_of_mem b hwq⟩
        rw [List.zip_cons_cons, alookup_cons, if_neg hva]
        exact hw

theorem alookup_zip_map (f : V → V) {v : V} :
    ∀ {l : List V}, v ∈ l → alookup (l.zip (l.map f)) v = some (f v) := by
  intro l
  induction l with
  | nil => intro hv; exact absurd hv (List.not_mem_nil v)
  | cons a t ih =>
    intro hv
    by_cases hva : v = a
    · subst hva
      rw [List.map_cons, List.zip_cons_cons, alookup_cons, if_pos rfl]
    · have hv' : v ∈ t := by
        rcases List.mem_cons.mp hv with h | h
        · exact absurd h hva
        · exact h
      rw [List.map_cons, List.zip_cons_cons, alookup_cons, if_neg hva]
      exact ih hv'

theorem map_applyMap_zip :
    ∀ {l p : List V}, l.Nodup → l.length = p.length →
      l.map (applyMap (l.zip p)) = p := by
  intro l
  induction l with
  | nil =>
    intro p _ hlen
    cases p with
    | nil => rfl
    | cons b q => exact absurd hlen (by simp)
  | cons a t ih =>
    intro p hnd hlen
    cases p with
    | nil => exact absurd hlen (by simp)
    | cons b q =>
      have hat : a ∉ t := (List.nodup_cons.mp hnd).1
      have h1 : applyMap ((a :: t).zip (b :: q)) a = b := by
        unfold applyMap
        rw [List.zip_cons_cons, alookup_cons, if_pos rfl]
        rfl
      have h2 : t.map (applyMap ((a :: t).zip (b :: q))) = t.map (applyMap (t.zip q)) := by
        apply List.map_congr_left
        intro v hv
        have hva : ¬v = a := fun h => hat (h ▸ hv)
        rw [List.zip_cons_cons, applyMap_cons_ne hva]
      calc (a :: t).map (applyMap ((a :: t).zip (b :: q)))
          = applyMap ((a :: t).zip (b :: q)) a
            :: t.map (applyMap ((a :: t).zip (b :: q))) := rfl
        _ = b :: t.map (applyMap (t.zip q)) := by rw [h1, h2]
        _ = b :: q := by rw [ih (List.nodup_cons.mp hnd).2 (by simpa using hlen)]

theorem alookup_map_zip_self {f : V → V} {v : V} :
    ∀ {l : List V}, (∀ a ∈ l, ∀ b ∈ l, f a = f b → a = b) → v ∈ l →
      alookup ((l.map f).zip l) (f v) = some v := by
  intro l
  induction l with
  | nil => intro _ hv; exact absurd hv (List.not_mem_nil v)
  | cons a t ih =>
    intro hinj hv
    show (if f v = f a then some a else alookup ((t.map f).zip t) (f v)) = some v
    by_cases hfa : f v = f a
    · have : v = a := hinj v hv a (List.mem_cons_self a t) hfa
      rw [if_pos hfa, this]
    · have hva : v ≠ a := fun h => hfa (h ▸ rfl)
      have hv' : v ∈ t := by
        rcases List.mem_cons.mp hv with h | h
        · exact absurd h hva
        · exact h
      rw [if_neg hfa]
      exact ih (fun x hx y hy => hinj x (List.mem_cons_of_mem a hx)
        y (List.mem_cons_of_mem a hy)) hv'

/-! ### Characterisation of the isomorphism oracle -/

theorem mem_isomorphismMappings {G1 G2 : Graph V} {m : List (V × V)} :
    m ∈ isomorphismMappings G1 G2 ↔
      (∃ p, List.Perm p G2.vertices ∧ m = G1.vertices.zip p ∧
        G1.vertices.length = G2.vertices.length) ∧
      isIsoMapping G1 G2 m = true := by
  unfold isomorphismMappings allBijections
  rw [List.mem_filter]
  constructor
  · rintro ⟨hmem, hiso⟩
    by_cases hlen : G1.vertices.length = G2.vertices.length
    · rw [if_pos hlen] at hmem
      rcases List.mem_map.mp hmem with ⟨p, hp, rfl⟩
      exact ⟨⟨p, mem_perms.mp hp, rfl, hlen⟩, hiso⟩
    · rw [if_neg hlen] at hmem
      exact absurd hmem (List.not_mem_nil m)
  · rintro ⟨⟨p, hperm, rfl, hlen⟩, hiso⟩
    refine ⟨?_, hiso⟩
    rw [if_pos hlen]
    exact List.mem_map_of_mem _ (mem_perms.mpr hperm)

theorem isIsoMapping_iff {G1 G2 : Graph V} {m : List (V × V)} :
    isIsoMapping G1 G2 m = true ↔
      ∀ u ∈ G1.vertices, ∀ v ∈ G1.vertices,
        adjB G1 u v = adjB G2 (applyMap m u) (applyMap m v) := by
  unfold isIsoMapping
  simp [List.all_eq_true]

theorem rootedIsoB_iff_exists (G1 G2 : Graph V) (root : V)
    (h1 : G1.vertices.Nodup) (hr1 : root ∈ G1.vertices) :
    rootedIsoB G1 G2 root = true ↔ ∃ f : V → V, IsRootedIso G1 G2 root f := by
  unfold rootedIsoB
  rw [List.any_eq_true]
  constructor
  · rintro ⟨m, hm, hroot⟩
    rw [decide_eq_true_eq] at hroot
    rcases mem_isomorphismMappings.mp hm with ⟨⟨p, hperm, rfl, hlen⟩, hiso⟩
    have hlenp : G1.vertices.length = p.length := by rw [hlen, hperm.length_eq]
    refine ⟨applyMap (G1.vertices.zip p), ?_, ?_, ?_⟩
    · rw [map_applyMap_zip h1 hlenp]; exact hperm
    · exact isIsoMapping_iff.mp hiso
    · unfold applyMap; rw [hroot]; rfl
  · rintro ⟨f, hperm, hadj, hroot⟩
    refine ⟨G1.vertices.zip (G1.vertices.map f), ?_, ?_⟩
    · apply mem_isomorphismMappings.mpr
      refine ⟨⟨G1.vertices.map f, hperm, rfl, ?_⟩, ?_⟩
      · rw [← hperm.length_eq, List.length_map]
      · apply isIsoMapping_iff.mpr
        intro u hu v hv
        have hu2 : applyMap (G1.vertices.zip (G1.vertices.map f)) u = f u := by
          unfold applyMap; rw [alookup_zip_map f hu]; rfl
        have hv2 : applyMap (G1.vertices.zip (G1.vertices.map f)) v = f v := by
          unfold applyMap; rw [alookup_zip_map f hv]; rfl
        rw [hu2, hv2]
        exact hadj u hu v hv
    · rw [decide_eq_true_eq, alookup_zip_map f hr1, hroot]

theorem rootedIsoB_refl (G : Graph V) (root : V)
    (hnd : G.vertices.Nodup) (hr : root ∈ G.vertices) :
    rootedIsoB G G root = true :=
  (rootedIsoB_iff_exists G G root hnd hr).mpr
    ⟨id, by simp, fun u _ v _ => rfl, rfl⟩

theorem rootedIsoB_symm {G1 G2 : Graph V} {root : V}
    (h1 : G1.vertices.Nodup) (h2 : G2.vertices.Nodup)
    (hr1 : root ∈ G1.vertices) (hr2 : root ∈ G2.vertices)
    (h : rootedIsoB G1 G2 root = true) : rootedIsoB G2 G1 root = true := by
  rcases (rootedIsoB_iff_exists G1 G2 root h1 hr1).mp h with ⟨f, hperm, hadj, hroot⟩
  have hndmap : (G1.vertices.map f).Nodup := hperm.nodup_iff.mpr h2
  have hinj : ∀ a ∈ G1.vertices, ∀ b ∈ G1.vertices, f a = f b → a = b :=
    fun a ha b hb hab => List.inj_on_of_nodup_map hndmap ha hb hab
  have hgf : ∀ v ∈ G1.vertices,
      (alookup ((G1.vertices.map f).zip G1.vertices) (f v)).getD (f v) = v := by
    intro v hv
    rw [alookup_map_zip_self hinj hv]
    rfl
  apply (rootedIsoB_iff_exists G2 G1 root h2 hr2).mpr
  refine ⟨fun w => (alookup ((G1.vertices.map f).zip G1.vertices) w).getD w, ?_, ?_, ?_⟩
  · have h3 : List.Perm (G2.vertices.map
        (fun w => (alookup ((G1.vertices.map f).zip G1.vertices) w).getD w))
        ((G1.vertices.map f).map
        (fun w => (alookup ((G1.vertices.map f).zip G1.vertices) w).getD w)) :=
      (hperm.symm).map _
    rw [List.map_map] at h3
    have h4 : G1.vertices.map
        ((fun w => (alookup ((G1.vertices.map f).zip G1.vertices) w).getD w) ∘ f)
        = G1.vertices := by
      have h5 : G1.vertices.map
          ((fun w => (alookup ((G1.vertices.map f).zip G1.vertices) w).getD w) ∘ f)
          = G1.vertices.map id :=
        List.map_congr_left (fun a ha => hgf a ha)
      rw [h5, List.map_id]
    rw [h4] at h3
    exact h3
  · intro u hu v hv
    have hu2 : u ∈ G1.vertices.map f := hperm.mem_iff.mpr hu
    have hv2 : v ∈ G1.vertices.map f := hperm.mem_iff.mpr hv
    rcases List.mem_map.mp hu2 with ⟨a, ha, rfl⟩
    rcases List.mem_map.mp hv2 with ⟨b, hb, rfl⟩
    show adjB G2 (f a) (f b)
      = adjB G1 ((alookup ((G1.vertices.map f).zip G1.vertices) (f a)).getD (f a))
        ((alookup ((G1.vertices.map f).zip G1.vertices) (f b)).getD (f b))
    rw [hgf a ha, hgf b hb]
    exact (hadj a ha b hb).symm
  · have hrmem : root ∈ G1.vertices.map f := hperm.mem_iff.mpr hr2
    rcases List.mem_map.mp hrmem with ⟨a, ha, hfa⟩
    have haroot : a = root := hinj a ha root hr1 (by rw [hfa, hroot])
    show (alookup ((G1.vertices.map f).zip G1.vertices) root).getD root = root
    have h6 : alookup ((G1.vertices.map f).zip G1.vertices) root = some a := by
      rw [← hfa]
      exact alookup_map_zip_self hinj ha
    rw [h6]
    exact haroot

theorem rootedIsoB_trans {G1 G2 G3 : Graph V} {root : V}
    (h1 : G1.vertices.Nodup) (h2 : G2.vertices.Nodup)
    (hr1 : root ∈ G1.vertices) (hr2 : root ∈ G2.vertices)
    (ha : rootedIsoB G1 G2 root = true) (hb : rootedIsoB G2 G3 root = true) :
    rootedIsoB G1 G3 root = true := by
  rcases (rootedIsoB_iff_exists G1 G2 root h1 hr1).mp ha with ⟨f, hpf, hadjf, hrf⟩
  rcases (rootedIsoB_iff_exists G2 G3 root h2 hr2).mp hb with ⟨g, hpg, hadjg, hrg⟩
  apply (rootedIsoB_iff_exists G1 G3 root h1 hr1).mpr
  refine ⟨g ∘ f, ?_, ?_, ?_⟩
  · rw [← List.map_map]
    exact (hpf.map g).trans hpg
  · intro u hu v hv
    have hfu : f u ∈ G2.vertices := hpf.mem_iff.mp (List.mem_map_of_mem f hu)
    have hfv : f v ∈ G2.vertices := hpf.mem_iff.mp (List.mem_map_of_mem f hv)
    calc adjB G1 u v = adjB G2 (f u) (f v) := hadjf u hu v hv
      _ = adjB G3 (g (f u)) (g (f v)) := hadjg (f u) hfu (f v) hfv
  · show g (f root) = root
    rw [hrf, hrg]

/-! ### Error-freeness of `rooted_is_isomorphic` when the root is in `G1` -/

theorem findRoot_eq_ok {root : V} :
    ∀ {ms : List (List (V × V))}, (∀ m ∈ ms, ∃ w, alookup m root = some w) →
      findRoot root ms = .ok (ms.any (fun m => decide (alookup m root = some root))) := by
  intro ms
  induction ms with
  | nil => intro _; rfl
  | cons m rest ih =>
    intro h
    rcases h m (List.mem_cons_self m rest) with ⟨w, hw⟩
    have hstep : findRoot root (m :: rest)
        = if w = root then Except.ok true else findRoot root rest := by
      show (match alookup m root with
        | none => Except.error "KeyError"
        | some w => if w = root then Except.ok true else findRoot root rest) = _
      rw [hw]
    rw [hstep]
    by_cases hwr : w = root
    · rw [if_pos hwr]
      have hdec : decide (alookup m root = some root) = true := by
        rw [hw, hwr]; simp
      simp [List.any_cons, hdec]
    · rw [if_neg hwr, ih (fun m2 hm2 => h m2 (List.mem_cons_of_mem m hm2))]
      have hdec : decide (alookup m root = some root) = false := by
        rw [hw]; simp [hwr]
      simp [List.any_cons, hdec]

theorem rooted_is_isomorphic_eq_ok (G1 G2 : Graph V) (root : V)
    (hr1 : root ∈ G1.vertices) :
    rooted_is_isomorphic G1 G2 root = .ok (rootedIsoB G1 G2 root) := by
  unfold rooted_is_isomorphic rootedIsoB
  by_cases hnil : isomorphismMappings G1 G2 = []
  · rw [hnil]
    rfl
  · rw [if_neg (fun h => hnil (List.isEmpty_iff.mp h))]
    apply findRoot_eq_ok
    intro m hm
    rcases mem_isomorphismMappings.mp hm with ⟨⟨p, hperm, rfl, hlen⟩, _⟩
    have hlenp : G1.vertices.length = p.length := by rw [hlen, hperm.length_eq]
    rcases alookup_zip_isSome hlenp hr1 with ⟨w, hw, _⟩
    exact ⟨w, hw⟩


/-! ### C2: correctness of the rooted isomorphism checker -/

/-- C2: with the root present in both vertex sets, `rooted_is_isomorphic`
returns true iff some adjacency-preserving bijection between the vertex
sets maps the root to itself. -/
theorem rooted_is_isomorphic_spec (G1 G2 : Graph V) (root : V)
    (h1 : G1.vertices.Nodup) (h2 : G2.vertices.Nodup)
    (hr1 : root ∈ G1.vertices) (hr2 : root ∈ G2.vertices) :
    rooted_is_isomorphic G1 G2 root = .ok true ↔
      ∃ f : V → V, IsRootedIso G1 G2 root f := by
  rw [rooted_is_isomorphic_eq_ok G1 G2 root hr1]
  constructor
  · intro h
    exact (rootedIsoB_iff_exists G1 G2 root h1 hr1).mp (Except.ok.inj h)
  · intro h
    rw [(rootedIsoB_iff_exists G1 G2 root h1 hr1).mpr h]

/-- Witness for C2: a single edge 0-1 compared with itself at root 0. -/
theorem rooted_is_isomorphic_spec_witness :
    rooted_is_isomorphic (⟨[0, 1], [(0, 1)]⟩ : Graph ℕ) ⟨[0, 1], [(0, 1)]⟩ 0 = .ok true :=
  (rooted_is_isomorphic_spec ⟨[0, 1], [(0, 1)]⟩ ⟨[0, 1], [(0, 1)]⟩ 0
    (by decide) (by decide) (by decide) (by decide)).mpr
    ⟨id, by simp, fun u _ v _ => rfl, rfl⟩

/-! ### C8: behaviour when the root is missing from a vertex set -/

theorem rooted_error_of_root_not_in_left {G1 G2 : Graph V} {root : V}
    (hne : isomorphismMappings G1 G2 ≠ []) (h : root ∉ G1.vertices) :
    rooted_is_isomorphic G1 G2 root = .error "KeyError" := by
  unfold rooted_is_isomorphic
  rw [if_neg (fun hh => hne (List.isEmpty_iff.mp hh))]
  cases hl : isomorphismMappings G1 G2 with
  | nil => exact absurd hl hne
  | cons m rest =>
    have hm : m ∈ isomorphismMappings G1 G2 := by
      rw [hl]; exact List.mem_cons_self m rest
    rcases mem_isomorphismMappings.mp hm with ⟨⟨p, hperm, hmz, hlen⟩, _⟩
    subst hmz
    show (match alookup (G1.vertices.zip p) root with
      | none => Except.error "KeyError"
      | some w => if w = root then Except.ok true else findRoot root rest) = _
    rw [alookup_zip_none h]

theorem rooted_false_of_root_not_in_right {G1 G2 : Graph V} {root : V}
    (h1 : root ∈ G1.vertices) (h2 : root ∉ G2.vertices) :
    rooted_is_isomorphic G1 G2 root = .ok false := by
  rw [rooted_is_isomorphic_eq_ok G1 G2 root h1]
  have hfalse : rootedIsoB G1 G2 root = false := by
    unfold rootedIsoB
    rw [List.any_eq_false]
    intro m hm
    rcases mem_isomorphismMappings.mp hm with ⟨⟨p, hperm, hmz, hlen⟩, _⟩
    subst hmz
    have hlenp : G1.vertices.length = p.length := by rw [hlen, hperm.length_eq]
    rcases alookup_zip_isSome hlenp h1 with ⟨w, hw, hwp⟩
    have hwroot : w ≠ root := fun hh => h2 (hh ▸ hperm.mem_iff.mp hwp)
    simp [hw, hwroot]
  rw [hfalse]

/-- C8 counterexample: with root 0 present in `G1` but absent from `G2`,
the checker silently returns `.ok false` instead of failing with an
`InvalidArgument` error. -/
theorem rooted_missing_root_silent_false :
    ((0 : ℕ) ∉ (⟨[1], []⟩ : Graph ℕ).vertices) ∧
    rooted_is_isomorphic (⟨[0], []⟩ : Graph ℕ) ⟨[1], []⟩ 0 = .ok false := by decide

/-- C8 amended: the checker performs no root validation.  When the root is
missing from either vertex set it silently returns false, except that a
`KeyError` (not an `InvalidArgument` error) escapes when the graphs are
isomorphic and the root is missing from `G1`'s vertex set. -/
theorem rooted_is_isomorphic_missing_root (G1 G2 : Graph V) (root : V)
    (h : root ∉ G1.vertices ∨ root ∉ G2.vertices) :
    rooted_is_isomorphic G1 G2 root = .ok false ∨
    rooted_is_isomorphic G1 G2 root = .error "KeyError" := by
  by_cases h1 : root ∈ G1.vertices
  · rcases h with h' | h'
    · exact absurd h1 h'
    · exact Or.inl (rooted_false_of_root_not_in_right h1 h')
  · by_cases hnil : isomorphismMappings G1 G2 = []
    · left
      unfold rooted_is_isomorphic
      rw [hnil]
      rfl
    · exact Or.inr (rooted_error_of_root_not_in_left hnil h1)

/-- Witness for the amended C8 at a concrete non-isomorphic pair with an
absent root. -/
theorem rooted_is_isomorphic_missing_root_witness :
    rooted_is_isomorphic (⟨[0], []⟩ : Graph ℕ) ⟨[0, 1], [(0, 1)]⟩ 5 = .ok false ∨
    rooted_is_isomorphic (⟨[0], []⟩ : Graph ℕ) ⟨[0, 1], [(0, 1)]⟩ 5 = .error "KeyError" :=
  rooted_is_isomorphic_missing_root _ _ 5 (Or.inl (by decide))

theorem combinationsL_eq_nil_of_lt :
    ∀ (l : List α) (n : ℕ), l.length < n → combinationsL n l = [] := by
  intro l
  induction l with
  | nil =>
    intro n hn
    match n, hn with
    | n + 1, _ => rfl
  | cons x xs ih =>
    intro n hn
    match n, hn with
    | n + 1, hn =>
      have h1 : xs.length < n := by simpa using hn
      show (combinationsL n xs).map _ ++ combinationsL (n + 1) xs = []
      rw [ih n h1, ih (n + 1) (Nat.lt_succ_of_lt h1)]
      rfl

theorem sublist_length_of_mem_combinationsL :
    ∀ (n : ℕ) (l s : List α), s ∈ combinationsL n l → s.Sublist l ∧ s.length = n := by
  intro n
  induction n with
  | zero =>
    intro l s hs
    have : s = [] := by simpa [combinationsL] using hs
    subst this
    exact ⟨List.nil_sublist l, rfl⟩
  | succ n ih =>
    intro l
    induction l with
    | nil => intro s hs; simp [combinationsL] at hs
    | cons x xs ihl =>
      intro s hs
      rw [show combinationsL (n + 1) (x :: xs)
            = (combinationsL n xs).map (fun t => x :: t) ++ combinationsL (n + 1) xs
          from rfl, List.mem_append] at hs
      rcases hs with hs | hs
      · rcases List.mem_map.mp hs with ⟨t, ht, rfl⟩
        rcases ih xs t ht with ⟨hsub, hlen⟩
        exact ⟨hsub.cons₂ x, by simp [hlen]⟩
      · rcases ihl s hs with ⟨hsub, hlen⟩
        exact ⟨hsub.cons x, hlen⟩

/-! ### C10: subplot grid -/

/-- C10: for `num_graphs ≥ 1` and `num_cols ≥ 1`, `calculate_subplot_grid`
returns `(num_rows, min num_cols num_graphs)` with enough grid cells for
all the graphs; at `num_graphs = 0` the unguarded division by zero is
reached instead. -/
theorem calculate_subplot_grid_spec (num_graphs num_cols : ℕ)
    (hg : 1 ≤ num_graphs) (hc : 1 ≤ num_cols) :
    (∃ num_rows, calculate_subplot_grid num_graphs num_cols =
        .ok (num_rows, min num_cols num_graphs) ∧
      num_graphs ≤ num_rows * min num_cols num_graphs) ∧
    calculate_subplot_grid 0 num_cols = .error "ZeroDivisionError" := by
  constructor
  · refine ⟨(num_graphs + min num_cols num_graphs - 1) / min num_cols num_graphs, ?_, ?_⟩
    · unfold calculate_subplot_grid
      rw [if_neg (by omega), if_neg (by omega)]
    · have ha1 : 1 ≤ min num_cols num_graphs := by omega
      have h1 := Nat.div_add_mod (num_graphs + min num_cols num_graphs - 1)
        (min num_cols num_graphs)
      have h2 : (num_graphs + min num_cols num_graphs - 1) % min num_cols num_graphs
          < min num_cols num_graphs := Nat.mod_lt _ (by omega)
      rw [Nat.mul_comm]
      omega
  · unfold calculate_subplot_grid
    rw [if_neg (by omega), if_pos (by omega)]

/-- Witness for C10 at `num_graphs = 5`, `num_cols = 4`. -/
theorem calculate_subplot_grid_spec_witness :
    (∃ num_rows, calculate_subplot_grid 5 4 = .ok (num_rows, min 4 5) ∧
      5 ≤ num_rows * min 4 5) ∧
    calculate_subplot_grid 0 4 = .error "ZeroDivisionError" :=
  calculate_subplot_grid_spec 5 4 (by decide) (by decide)

/-! ### C9: extractor edge cases -/

/-- C9: a requested size larger than the vertex count, or a target vertex
absent from the graph, yields an empty list (not an error). -/
theorem find_subgraphs_edge_cases (G : Graph V) (size : ℕ) (vertex : V) :
    (G.vertices.length < size → find_subgraphs_containing_vertex G size vertex = []) ∧
    (vertex ∉ G.vertices → find_subgraphs_containing_vertex G size vertex = []) := by
  constructor
  · intro h
    unfold find_subgraphs_containing_vertex
    rw [combinationsL_eq_nil_of_lt _ _ h]
    rfl
  · intro h
    unfold find_subgraphs_containing_vertex
    rw [List.filterMap_eq_nil_iff]
    intro s hs
    have hsub := (sublist_length_of_mem_combinationsL _ _ _ hs).1
    rw [if_neg]
    intro hv
    exact h (hsub.subset hv)

/-- Witness for C9 on the path 0-1-2: size 5 exceeds the vertex count,
and vertex 7 is absent. -/
theorem find_subgraphs_edge_cases_witness :
    find_subgraphs_containing_vertex (⟨[0, 1, 2], [(0, 1), (1, 2)]⟩ : Graph ℕ) 5 0 = [] ∧
    find_subgraphs_containing_vertex (⟨[0, 1, 2], [(0, 1), (1, 2)]⟩ : Graph ℕ) 2 7 = [] :=
  ⟨(find_subgraphs_edge_cases _ 5 0).1 (by decide),
   (find_subgraphs_edge_cases _ 2 7).2 (by decide)⟩

/-! ### C7: K4 seed count -/

/-- C7 counterexample: `find_subgraphs_containing_vertex(K4, 3, 0)` does
not return 4 subgraphs — only 3 of the `C(4,3) = 4` vertex subsets contain
vertex 0 (the subset `{1,2,3}` does not). -/
theorem find_subgraphs_K4_count_ne_four :
    (find_subgraphs_containing_vertex K4 3 0).length ≠ 4 := by decide

/-- C7 amended: `find_subgraphs_containing_vertex(K4, 3, 0)` returns
exactly 3 subgraphs. -/
theorem find_subgraphs_K4_count :
    (find_subgraphs_containing_vertex K4 3 0).length = 3 := by decide

/-! ### C6: path A-B-C vs path A-C-B, root A -/

/-- C6 counterexample: on the paths A-B-C and A-C-B with root A the checker
does not return false — A is a degree-1 endpoint in both paths, and the
mapping A↦A, B↦C, C↦B is a root-fixing isomorphism. -/
theorem rooted_paths_not_false :
    rooted_is_isomorphic pathABC pathACB 'A' ≠ .ok false := by decide

/-- C6 amended: `rooted_is_isomorphic` on path A-B-C vs path A-C-B with
root A returns true. -/
theorem rooted_paths_true :
    rooted_is_isomorphic pathABC pathACB 'A' = .ok true := by decide

/-! ### C5: graphlets on three labelled nodes -/

/-- C5 counterexample: `find_all_graphlets(['A','B','C'], 'A')` does not
return 4 representatives: the two paths with root A at an endpoint
(A-B-C and A-C-B) are rooted-isomorphic, leaving only 3 classes. -/
theorem find_all_graphlets_three_nodes_ne_four :
    (find_all_graphlets ['A', 'B', 'C'] 'A').toOption.map List.length ≠ some 4 := by
  decide

/-- C5 amended: `find_all_graphlets(['A','B','C'], 'A')` returns exactly 3
representatives (root of degree 2, root at a path endpoint, triangle). -/
theorem find_all_graphlets_three_nodes :
    (find_all_graphlets ['A', 'B', 'C'] 'A').toOption.map List.length = some 3 := by
  decide

/-! ### The deduplication loop -/

theorem anyExcept_eq_ok {f : α → Except String Bool} {g : α → Bool}
    (hfg : ∀ x, f x = .ok (g x)) : ∀ l : List α, anyExcept f l = .ok (l.any g) := by
  intro l
  induction l with
  | nil => rfl
  | cons a as ih =>
    show (match f a with
      | .error e => Except.error e
      | .ok true => Except.ok true
      | .ok false => anyExcept f as) = Except.ok ((a :: as).any g)
    rw [hfg a]
    cases hga : g a with
    | true =>
      show Except.ok true = Except.ok ((a :: as).any g)
      rw [List.any_cons, hga, Bool.true_or]
    | false =>
      show anyExcept f as = Except.ok ((a :: as).any g)
      rw [ih, List.any_cons, hga, Bool.false_or]

theorem dedupLoop_eq_ok {root : V} :
    ∀ (l us : List (Graph V)), (∀ G ∈ l, root ∈ G.vertices) →
      dedupLoop root l us = .ok (dedupPure root l us) := by
  intro l
  induction l with
  | nil => intro us _; rfl
  | cons G rest ih =>
    intro us h
    have hG : root ∈ G.vertices := h G (List.mem_cons_self G rest)
    have hrest : ∀ G2 ∈ rest, root ∈ G2.vertices :=
      fun G2 h2 => h G2 (List.mem_cons_of_mem G h2)
    have hany : anyExcept (fun H => rooted_is_isomorphic G H root) us
        = .ok (us.any (fun H => rootedIsoB G H root)) :=
      anyExcept_eq_ok (fun H => rooted_is_isomorphic_eq_ok G H root hG) us
    show (match anyExcept (fun H => rooted_is_isomorphic G H root) us with
      | .error e => Except.error e
      | .ok true => dedupLoop root rest us
      | .ok false => dedupLoop root rest (us ++ [G]))
      = Except.ok (dedupPure root (G :: rest) us)
    rw [hany]
    cases hb : us.any (fun H => rootedIsoB G H root) with
    | true =>
      show dedupLoop root rest us = Except.ok (dedupPure root (G :: rest) us)
      have hstep : dedupPure root (G :: rest) us = dedupPure root rest us := by
        show (if us.any (fun H => rootedIsoB G H root) then dedupPure root rest us
          else dedupPure root rest (us ++ [G])) = dedupPure root rest us
        rw [hb]
        rfl
      rw [hstep]
      exact ih us hrest
    | false =>
      show dedupLoop root rest (us ++ [G]) = Except.ok (dedupPure root (G :: rest) us)
      have hstep : dedupPure root (G :: rest) us = dedupPure root rest (us ++ [G]) := by
        show (if us.any (fun H => rootedIsoB G H root) then dedupPure root rest us
          else dedupPure root rest (us ++ [G])) = dedupPure root rest (us ++ [G])
        rw [hb]
        rfl
      rw [hstep]
      exact ih (us ++ [G]) hrest

theorem dedupPure_cons_true {root : V} {G : Graph V} {rest us : List (Graph V)}
    (hb : us.any (fun H => rootedIsoB G H root) = true) :
    dedupPure root (G :: rest) us = dedupPure root rest us := by
  show (if us.any (fun H => rootedIsoB G H root) then dedupPure root rest us
    else dedupPure root rest (us ++ [G])) = dedupPure root rest us
  rw [hb]
  rfl

theorem dedupPure_cons_false {root : V} {G : Graph V} {rest us : List (Graph V)}
    (hb : us.any (fun H => rootedIsoB G H root) = false) :
    dedupPure root (G :: rest) us = dedupPure root rest (us ++ [G]) := by
  show (if us.any (fun H => rootedIsoB G H root) then dedupPure root rest us
    else dedupPure root rest (us ++ [G])) = dedupPure root rest (us ++ [G])
  rw [hb]
  rfl

theorem dedupPure_mono {root : V} :
    ∀ (l us : List (Graph V)) (R : Graph V), R ∈ us → R ∈ dedupPure root l us := by
  intro l
  induction l with
  | nil => intro us R hR; exact hR
  | cons G rest ih =>
    intro us R hR
    cases hb : us.any (fun H => rootedIsoB G H root) with
    | true =>
      rw [dedupPure_cons_true hb]
      exact ih us R hR
    | false =>
      rw [dedupPure_cons_false hb]
      exact ih (us ++ [G]) R (List.mem_append_left _ hR)

theorem dedupPure_sub {root : V} :
    ∀ (l us : List (Graph V)) (R : Graph V), R ∈ dedupPure root l us → R ∈ us ∨ R ∈ l := by
  intro l
  induction l with
  | nil => intro us R hR; exact Or.inl hR
  | cons G rest ih =>
    intro us R hR
    cases hb : us.any (fun H => rootedIsoB G H root) with
    | true =>
      rw [dedupPure_cons_true hb] at hR
      rcases ih us R hR with h | h
      · exact Or.inl h
      · exact Or.inr (List.mem_cons_of_mem G h)
    | false =>
      rw [dedupPure_cons_false hb] at hR
      rcases ih (us ++ [G]) R hR with h | h
      · rcases List.mem_append.mp h with h2 | h2
        · exact Or.inl h2
        · have hRG : R = G := by simpa using h2
          right
          rw [hRG]
          exact List.mem_cons_self G rest
      · exact Or.inr (List.mem_cons_of_mem G h)

theorem dedupPure_covers {root : V} :
    ∀ (l us : List (Graph V)),
      (∀ G ∈ l, G.vertices.Nodup ∧ root ∈ G.vertices) →
      ∀ G ∈ l, ∃ R, R ∈ dedupPure root l us ∧ rootedIsoB G R root = true := by
  intro l
  induction l with
  | nil => intro us _ G hG; exact absurd hG (List.not_mem_nil G)
  | cons G0 rest ih =>
    intro us hl G hG
    have hG0 := hl G0 (List.mem_cons_self G0 rest)
    have hrest : ∀ G2 ∈ rest, G2.vertices.Nodup ∧ root ∈ G2.vertices :=
      fun G2 h2 => hl G2 (List.mem_cons_of_mem G0 h2)
    cases hb : us.any (fun H => rootedIsoB G0 H root) with
    | true =>
      rw [dedupPure_cons_true hb]
      rcases List.mem_cons.mp hG with rfl | hG2
      · rcases List.any_eq_true.mp hb with ⟨H, hH, hiso⟩
        exact ⟨H, dedupPure_mono rest us H hH, hiso⟩
      · exact ih us hrest G hG2
    | false =>
      rw [dedupPure_cons_false hb]
      rcases List.mem_cons.mp hG with rfl | hG2
      · refine ⟨G, dedupPure_mono rest (us ++ [G]) G ?_, rootedIsoB_refl G root hG0.1 hG0.2⟩
        exact List.mem_append_right _ (List.mem_cons_self G [])
      · exact ih (us ++ [G0]) hrest G hG2

theorem dedupPure_pw {root : V} :
    ∀ (l us : List (Graph V)),
      (∀ G ∈ l, G.vertices.Nodup ∧ root ∈ G.vertices) →
      (∀ H ∈ us, H.vertices.Nodup ∧ root ∈ H.vertices) →
      (∀ R1 ∈ us, ∀ R2 ∈ us, R1 ≠ R2 → rootedIsoB R1 R2 root = false) →
      ∀ R1 ∈ dedupPure root l us, ∀ R2 ∈ dedupPure root l us, R1 ≠ R2 →
        rootedIsoB R1 R2 root = false := by
  intro l
  induction l with
  | nil => intro us _ _ hpw; exact hpw
  | cons G rest ih =>
    intro us hl hus hpw
    have hG := hl G (List.mem_cons_self G rest)
    have hrest : ∀ G2 ∈ rest, G2.vertices.Nodup ∧ root ∈ G2.vertices :=
      fun G2 h2 => hl G2 (List.mem_cons_of_mem G h2)
    cases hb : us.any (fun H => rootedIsoB G H root) with
    | true =>
      rw [dedupPure_cons_true hb]
      exact ih us hrest hus hpw
    | false =>
      rw [dedupPure_cons_false hb]
      apply ih (us ++ [G]) hrest
      · intro H hH
        rcases List.mem_append.mp hH with h | h
        · exact hus H h
        · have hHG : H = G := by simpa using h
          rw [hHG]
          exact hG
      · intro R1 h1 R2 h2 hne
        have hfalse : ∀ H ∈ us, rootedIsoB G H root = false := by
          intro H hH
          have h3 := List.any_eq_false.mp hb H hH
          simpa using h3
        rcases List.mem_append.mp h1 with h1a | h1a
        · rcases List.mem_append.mp h2 with h2a | h2a
          · exact hpw R1 h1a R2 h2a hne
          · have hR2 : R2 = G := by simpa using h2a
            cases hq : rootedIsoB R1 R2 root with
            | false => rfl
            | true =>
              rw [hR2] at hq
              have h5 := rootedIsoB_symm (hus R1 h1a).1 hG.1 (hus R1 h1a).2 hG.2 hq
              rw [hfalse R1 h1a] at h5
              exact Bool.noConfusion h5
        · have hR1 : R1 = G := by simpa using h1a
          rcases List.mem_append.mp h2 with h2a | h2a
          · rw [hR1]
            exact hfalse R2 h2a
          · have hR2 : R2 = G := by simpa using h2a
            exact absurd (hR1.trans hR2.symm) hne

/-! ### Membership in the generated graph lists -/

theorem mem_connectedGraphsOn {nodes : List V} {G : Graph V}
    (h : G ∈ connectedGraphsOn nodes) : G.vertices = nodes ∧ is_connected G = true := by
  unfold connectedGraphsOn at h
  rw [List.mem_filter] at h
  refine ⟨?_, h.2⟩
  have hmem := h.1
  unfold allGraphsOn at hmem
  rcases List.mem_map.mp hmem with ⟨i, _, hGe⟩
  rw [← hGe]

theorem maskSelect_exists_of_sublist :
    ∀ {s l : List α}, s.Sublist l → ∃ i, i < 2 ^ l.length ∧ maskSelect l i = s := by
  intro s l h
  induction h with
  | slnil => exact ⟨0, Nat.two_pow_pos _, rfl⟩
  | cons x _h ih =>
    rcases ih with ⟨i, hi, hsel⟩
    refine ⟨2 * i, ?_, ?_⟩
    · rw [List.length_cons, pow_succ]
      omega
    · show (if 2 * i % 2 = 1 then [x] else []) ++ maskSelect _ (2 * i / 2) = _
      rw [show 2 * i % 2 = 0 from by omega]
      rw [if_neg (by decide)]
      rw [show 2 * i / 2 = i from by omega, hsel]
      rfl
  | cons₂ x _h ih =>
    rcases ih with ⟨i, hi, hsel⟩
    refine ⟨2 * i + 1, ?_, ?_⟩
    · rw [List.length_cons, pow_succ]
      omega
    · show (if (2 * i + 1) % 2 = 1 then [x] else []) ++ maskSelect _ ((2 * i + 1) / 2) = _
      rw [show (2 * i + 1) % 2 = 1 from by omega]
      rw [if_pos rfl]
      rw [show (2 * i + 1) / 2 = i from by omega, hsel]
      rfl

theorem mem_pairsOf_of_ne :
    ∀ {l : List V} {u v : V}, u ∈ l → v ∈ l → u ≠ v →
      (u, v) ∈ pairsOf l ∨ (v, u) ∈ pairsOf l := by
  intro l
  induction l with
  | nil => intro u v hu _ _; exact absurd hu (List.not_mem_nil u)
  | cons x xs ih =>
    intro u v hu hv hne
    rcases List.mem_cons.mp hu with rfl | hu2
    · rcases List.mem_cons.mp hv with rfl | hv2
      · exact absurd rfl hne
      · left
        show (u, v) ∈ xs.map (fun y => (u, y)) ++ pairsOf xs
        exact List.mem_append_left _ (List.mem_map_of_mem _ hv2)
    · rcases List.mem_cons.mp hv with rfl | hv2
      · right
        show (v, u) ∈ xs.map (fun y => (v, y)) ++ pairsOf xs
        exact List.mem_append_left _ (List.mem_map_of_mem _ hu2)
      · rcases ih hu2 hv2 hne with h | h
        · left
          exact List.mem_append_right _ h
        · right
          exact List.mem_append_right _ h

theorem adjB_comm (G : Graph V) (u v : V) : adjB G u v = adjB G v u := by
  unfold adjB
  exact Bool.or_comm _ _

theorem adjB_true_left {G : Graph V} {u v : V} (h : (u, v) ∈ G.edges) :
    adjB G u v = true := by
  unfold adjB
  rw [decide_eq_true h, Bool.true_or]

theorem adjB_true_right {G : Graph V} {u v : V} (h : (v, u) ∈ G.edges) :
    adjB G u v = true := by
  unfold adjB
  rw [decide_eq_true h, Bool.or_true]

theorem adjB_true_elim {G : Graph V} {u v : V} (h : adjB G u v = true) :
    (u, v) ∈ G.edges ∨ (v, u) ∈ G.edges := by
  unfold adjB at h
  simp only [Bool.or_eq_true, decide_eq_true_eq] at h
  exact h

/-- The edge list selected from `pairsOf nodes` by the adjacency of `H`
induces exactly the adjacency of `H` on `nodes`, provided `H` has no
self-loops. -/
theorem adjB_filter_graph {nodes : List V} (H : Graph V)
    (hloop : ∀ e ∈ H.edges, e.1 ≠ e.2) :
    ∀ u ∈ nodes, ∀ v ∈ nodes,
      adjB (⟨nodes, (pairsOf nodes).filter (fun p => adjB H p.1 p.2)⟩ : Graph V) u v
        = adjB H u v := by
  intro u hu v hv
  cases hadj : adjB H u v with
  | true =>
    have hne : u ≠ v := by
      intro heq
      subst heq
      rcases adjB_true_elim hadj with h | h
      · exact (hloop _ h) rfl
      · exact (hloop _ h) rfl
    rcases mem_pairsOf_of_ne hu hv hne with h | h
    · exact adjB_true_left (List.mem_filter.mpr ⟨h, hadj⟩)
    · have hvu : adjB H v u = true := by rw [adjB_comm]; exact hadj
      exact adjB_true_right (List.mem_filter.mpr ⟨h, hvu⟩)
  | false =>
    cases hq : adjB (⟨nodes, (pairsOf nodes).filter (fun p => adjB H p.1 p.2)⟩ : Graph V) u v with
    | false => rfl
    | true =>
      rcases adjB_true_elim hq with hmem | hmem
      · have h2 : adjB H u v = true := (List.mem_filter.mp hmem).2
        rw [hadj] at h2
        exact Bool.noConfusion h2
      · have h2 : adjB H v u = true := (List.mem_filter.mp hmem).2
        rw [adjB_comm, hadj] at h2
        exact Bool.noConfusion h2

/-! ### Connectivity depends only on adjacency between the vertices -/

theorem any_congr_mem {p q : α → Bool} :
    ∀ {l : List α}, (∀ x ∈ l, p x = q x) → l.any p = l.any q := by
  intro l
  induction l with
  | nil => intro _; rfl
  | cons a as ih =>
    intro h
    rw [List.any_cons, List.any_cons, h a (List.mem_cons_self a as),
      ih (fun x hx => h x (List.mem_cons_of_mem a hx))]

theorem expand_congr {G G2 : Graph V} (hv : G.vertices = G2.vertices)
    (hadj : ∀ u ∈ G.vertices, ∀ v ∈ G.vertices, adjB G u v = adjB G2 u v)
    {s : List V} (hs : ∀ x ∈ s, x ∈ G.vertices) :
    expand G s = expand G2 s := by
  unfold expand
  rw [← hv]
  congr 1
  apply List.filter_congr
  intro u hu
  have h1 : s.any (fun w => adjB G w u) = s.any (fun w => adjB G2 w u) :=
    any_congr_mem (fun w hw => hadj w (hs w hw) u hu)
  rw [h1]

theorem expand_keeps {G : Graph V} {s : List V} (hs : ∀ x ∈ s, x ∈ G.vertices) :
    ∀ x ∈ expand G s, x ∈ G.vertices := by
  intro x hx
  unfold expand at hx
  rcases List.mem_append.mp hx with h | h
  · exact hs x h
  · exact (List.mem_filter.mp h).1

theorem reachN_congr {G G2 : Graph V} (hv : G.vertices = G2.vertices)
    (hadj : ∀ u ∈ G.vertices, ∀ v ∈ G.vertices, adjB G u v = adjB G2 u v) :
    ∀ (n : ℕ) (s : List V), (∀ x ∈ s, x ∈ G.vertices) →
      reachN G n s = reachN G2 n s := by
  intro n
  induction n with
  | zero => intro s _; rfl
  | succ n ih =>
    intro s hs
    show reachN G n (expand G s) = reachN G2 n (expand G2 s)
    rw [← expand_congr hv hadj hs]
    exact ih (expand G s) (expand_keeps hs)

theorem is_connected_cons (G : Graph V) (v : V) (vs : List V)
    (h : G.vertices = v :: vs) :
    is_connected G
      = G.vertices.all (fun u => decide (u ∈ reachN G G.vertices.length [v])) := by
  unfold is_connected
  rw [h]

theorem is_connected_congr {G G2 : Graph V} (hv : G.vertices = G2.vertices)
    (hadj : ∀ u ∈ G.vertices, ∀ v ∈ G.vertices, adjB G u v = adjB G2 u v) :
    is_connected G = is_connected G2 := by
  cases hvs : G.vertices with
  | nil =>
    have h1 : is_connected G = false := by
      unfold is_connected
      rw [hvs]
    have h2 : is_connected G2 = false := by
      unfold is_connected
      rw [← hv, hvs]
    rw [h1, h2]
  | cons v vs =>
    rw [is_connected_cons G v vs hvs, is_connected_cons G2 v vs (by rw [← hv, hvs])]
    rw [← hv]
    have hsv : ∀ x ∈ [v], x ∈ G.vertices := by
      intro x hx
      have hxv : x = v := by simpa using hx
      rw [hxv, hvs]
      exact List.mem_cons_self v vs
    rw [reachN_congr hv hadj G.vertices.length [v] hsv]

/-! ### C1: the enumerator output is a transversal -/

/-- C1: for a non-empty duplicate-free vertex list containing the root,
`find_all_graphlets` succeeds, every representative is a connected graph on
exactly that vertex set, and every connected loop-free graph constructible
on that vertex set is rooted-isomorphic to exactly one representative. -/
theorem find_all_graphlets_spec (nodes : List V) (root : V)
    (hne : nodes ≠ []) (hnd : nodes.Nodup) (hroot : root ∈ nodes) :
    (∃ res, find_all_graphlets nodes root = .ok res) ∧
    ∀ res, find_all_graphlets nodes root = .ok res →
      GraphletSpec nodes root res := by
  have hgoodl : ∀ G ∈ connectedGraphsOn nodes, root ∈ G.vertices := by
    intro G hG
    rw [(mem_connectedGraphsOn hG).1]
    exact hroot
  have hok : find_all_graphlets nodes root = .ok (findAllPure nodes root) :=
    dedupLoop_eq_ok (connectedGraphsOn nodes) [] hgoodl
  refine ⟨⟨findAllPure nodes root, hok⟩, ?_⟩
  intro res hres
  have hres2 : res = findAllPure nodes root := by
    rw [hok] at hres
    exact (Except.ok.inj hres).symm
  subst hres2
  have hgood : ∀ G ∈ connectedGraphsOn nodes, G.vertices.Nodup ∧ root ∈ G.vertices := by
    intro G hG
    rw [(mem_connectedGraphsOn hG).1]
    exact ⟨hnd, hroot⟩
  constructor
  · intro R hR
    rcases dedupPure_sub (connectedGraphsOn nodes) [] R hR with h | h
    · exact absurd h (List.not_mem_nil R)
    · exact mem_connectedGraphsOn h
  · intro H hHv hHe hHc
    have hrootH : root ∈ H.vertices := by rw [hHv]; exact hroot
    have hndH : H.vertices.Nodup := by rw [hHv]; exact hnd
    have hadjeq : ∀ u ∈ nodes, ∀ v ∈ nodes,
        adjB (⟨nodes, (pairsOf nodes).filter (fun p => adjB H p.1 p.2)⟩ : Graph V) u v
          = adjB H u v :=
      adjB_filter_graph H (fun e he => (hHe e he).2.2)
    have hvGS : (⟨nodes, (pairsOf nodes).filter
        (fun p => adjB H p.1 p.2)⟩ : Graph V).vertices = H.vertices := by
      rw [hHv]
    have hconGS : is_connected (⟨nodes, (pairsOf nodes).filter
        (fun p => adjB H p.1 p.2)⟩ : Graph V) = true := by
      rw [is_connected_congr hvGS (fun u hu v hv => hadjeq u hu v hv)]
      exact hHc
    have hsubl : ((pairsOf nodes).filter
        (fun p => adjB H p.1 p.2)).Sublist (pairsOf nodes) :=
      List.filter_sublist _
    rcases maskSelect_exists_of_sublist hsubl with ⟨i, hi, hsel⟩
    have hmemall : (⟨nodes, (pairsOf nodes).filter
        (fun p => adjB H p.1 p.2)⟩ : Graph V) ∈ allGraphsOn nodes := by
      unfold allGraphsOn
      apply List.mem_map.mpr
      refine ⟨i, List.mem_range.mpr hi, ?_⟩
      rw [hsel]
    have hmemcon : (⟨nodes, (pairsOf nodes).filter
        (fun p => adjB H p.1 p.2)⟩ : Graph V) ∈ connectedGraphsOn nodes := by
      unfold connectedGraphsOn
      exact List.mem_filter.mpr ⟨hmemall, hconGS⟩
    rcases dedupPure_covers (connectedGraphsOn nodes) [] hgood _ hmemcon
      with ⟨R, hRmem, hRiso⟩
    have hRin : R ∈ connectedGraphsOn nodes := by
      rcases dedupPure_sub (connectedGraphsOn nodes) [] R hRmem with h | h
      · exact absurd h (List.not_mem_nil R)
      · exact h
    have hRgood := hgood R hRin
    have hHGS : rootedIsoB H (⟨nodes, (pairsOf nodes).filter
        (fun p => adjB H p.1 p.2)⟩ : Graph V) root = true := by
      apply (rootedIsoB_iff_exists H _ root hndH hrootH).mpr
      refine ⟨id, ?_, ?_, rfl⟩
      · rw [List.map_id, hHv]
      · intro u hu v hv
        have hu2 : u ∈ nodes := by rw [← hHv]; exact hu
        have hv2 : v ∈ nodes := by rw [← hHv]; exact hv
        exact (hadjeq u hu2 v hv2).symm
    have hHR : rootedIsoB H R root = true :=
      rootedIsoB_trans hndH hnd hrootH hroot hHGS hRiso
    refine ⟨R, ⟨⟨hRmem, ?_⟩, ?_⟩⟩
    · rw [rooted_is_isomorphic_eq_ok H R root hrootH, hHR]
    · rintro R2 ⟨hR2mem, hR2iso⟩
      have hR2in : R2 ∈ connectedGraphsOn nodes := by
        rcases dedupPure_sub (connectedGraphsOn nodes) [] R2 hR2mem with h | h
        · exact absurd h (List.not_mem_nil R2)
        · exact h
      have hR2good := hgood R2 hR2in
      have hHR2 : rootedIsoB H R2 root = true := by
        rw [rooted_is_isomorphic_eq_ok H R2 root hrootH] at hR2iso
        exact Except.ok.inj hR2iso
      by_contra hne2
      have hsym : rootedIsoB R2 H root = true :=
        rootedIsoB_symm hndH hR2good.1 hrootH hR2good.2 hHR2
      have htrans : rootedIsoB R2 R root = true :=
        rootedIsoB_trans hR2good.1 hndH hR2good.2 hrootH hsym hHR
      have hpw := dedupPure_pw (connectedGraphsOn nodes) [] hgood
        (fun H2 hH2 => absurd hH2 (List.not_mem_nil H2))
        (fun Ra ha => absurd ha (List.not_mem_nil Ra))
        R2 hR2mem R hRmem hne2
      rw [hpw] at htrans
      exact Bool.noConfusion htrans

/-- Witness for C1 on the two-vertex set `[0, 1]` with root 0. -/
theorem find_all_graphlets_spec_witness :
    (∃ res, find_all_graphlets [0, 1] 0 = .ok res) ∧
    ∀ res, find_all_graphlets [0, 1] 0 = .ok res → GraphletSpec [0, 1] 0 res :=
  find_all_graphlets_spec [0, 1] 0 (by decide) (by decide) (by decide)

/-! ### C3: pairwise rooted non-isomorphism of the representatives -/

/-- C3: any two distinct representatives returned by `find_all_graphlets`
are reported non-isomorphic by the rooted checker. -/
theorem find_all_graphlets_pairwise (nodes : List V) (root : V)
    (hnd : nodes.Nodup) (hroot : root ∈ nodes)
    (res : List (Graph V)) (hres : find_all_graphlets nodes root = .ok res) :
    ∀ R1 ∈ res, ∀ R2 ∈ res, R1 ≠ R2 →
      rooted_is_isomorphic R1 R2 root = .ok false := by
  have hgoodl : ∀ G ∈ connectedGraphsOn nodes, root ∈ G.vertices := by
    intro G hG
    rw [(mem_connectedGraphsOn hG).1]
    exact hroot
  have hok : find_all_graphlets nodes root = .ok (findAllPure nodes root) :=
    dedupLoop_eq_ok (connectedGraphsOn nodes) [] hgoodl
  have hres2 : res = findAllPure nodes root := by
    rw [hok] at hres
    exact (Except.ok.inj hres).symm
  subst hres2
  intro R1 h1 R2 h2 hne
  have hgood : ∀ G ∈ connectedGraphsOn nodes, G.vertices.Nodup ∧ root ∈ G.vertices := by
    intro G hG
    rw [(mem_connectedGraphsOn hG).1]
    exact ⟨hnd, hroot⟩
  have hr1 : root ∈ R1.vertices := by
    rcases dedupPure_sub (connectedGraphsOn nodes) [] R1 h1 with h | h
    · exact absurd h (List.not_mem_nil R1)
    · exact (hgood R1 h).2
  have hpw := dedupPure_pw (connectedGraphsOn nodes) [] hgood
    (fun H2 hH2 => absurd hH2 (List.not_mem_nil H2))
    (fun Ra ha => absurd ha (List.not_mem_nil Ra))
    R1 h1 R2 h2 hne
  rw [rooted_is_isomorphic_eq_ok R1 R2 root hr1, hpw]

/-- Witness for C3: two distinct members of the computed representative
list for vertex set `[0, 1, 2]` with root 0. -/
theorem find_all_graphlets_pairwise_witness :
    rooted_is_isomorphic (⟨[0, 1, 2], [(0, 1), (0, 2)]⟩ : Graph ℕ)
      ⟨[0, 1, 2], [(0, 1), (1, 2)]⟩ 0 = .ok false :=
  find_all_graphlets_pairwise [0, 1, 2] 0 (by decide) (by decide)
    [⟨[0, 1, 2], [(0, 1), (0, 2)]⟩, ⟨[0, 1, 2], [(0, 1), (1, 2)]⟩,
     ⟨[0, 1, 2], [(0, 1), (0, 2), (1, 2)]⟩]
    (by decide)
    ⟨[0, 1, 2], [(0, 1), (0, 2)]⟩ (by decide)
    ⟨[0, 1, 2], [(0, 1), (1, 2)]⟩ (by decide)
    (by decide)

/-! ### C4: the subgraph extractor -/

theorem countP_congr_mem {p q : α → Bool} :
    ∀ {l : List α}, (∀ x ∈ l, p x = q x) → l.countP p = l.countP q := by
  intro l
  induction l with
  | nil => intro _; rfl
  | cons a as ih =>
    intro h
    rw [List.countP_cons, List.countP_cons, h a (List.mem_cons_self a as),
      ih (fun x hx => h x (List.mem_cons_of_mem a hx))]

theorem countP_filterMap {β : Type} (q : β → Bool) (f : α → Option β) :
    ∀ l : List α, (l.filterMap f).countP q
      = l.countP (fun x => ((f x).map q).getD false) := by
  intro l
  induction l with
  | nil => rfl
  | cons a as ih =>
    cases hfa : f a with
    | none =>
      rw [List.filterMap_cons_none hfa, ih, List.countP_cons]
      simp [hfa]
    | some b =>
      rw [List.filterMap_cons_some hfa, List.countP_cons, List.countP_cons, ih]
      simp [hfa]

/-- Each length-`n` sublist of a duplicate-free list occurs exactly once in
`combinationsL n`. -/
theorem countP_combinationsL :
    ∀ {l : List V} {s : List V}, l.Nodup → s.Sublist l →
      (combinationsL s.length l).countP (fun t => decide (t = s)) = 1 := by
  intro l
  induction l with
  | nil =>
    intro s _ hsub
    have hs : s = [] := List.sublist_nil.mp hsub
    subst hs
    rfl
  | cons x t ih =>
    intro s hnd hsub
    cases s with
    | nil => rfl
    | cons y s2 =>
      have hx : x ∉ t := (List.nodup_cons.mp hnd).1
      have hndt : t.Nodup := (List.nodup_cons.mp hnd).2
      cases hsub with
      | cons _a hsub2 =>
        show ((combinationsL s2.length t).map (fun c => x :: c)
          ++ combinationsL (s2.length + 1) t).countP (fun c => decide (c = y :: s2)) = 1
        rw [List.countP_append]
        have h1 : ((combinationsL s2.length t).map (fun c => x :: c)).countP
            (fun c => decide (c = y :: s2)) = 0 := by
          apply List.countP_eq_zero.mpr
          intro c hc
          rcases List.mem_map.mp hc with ⟨c0, _, rfl⟩
          simp only [decide_eq_true_eq]
          intro heq
          have hy : y ∈ t := hsub2.subset (List.mem_cons_self y s2)
          apply hx
          rw [(List.cons.inj heq).1]
          exact hy
        have hih := ih hndt hsub2
        rw [List.length_cons] at hih
        rw [h1, hih]
      | cons₂ _a hsub2 =>
        show ((combinationsL s2.length t).map (fun c => x :: c)
          ++ combinationsL (s2.length + 1) t).countP (fun c => decide (c = x :: s2)) = 1
        rw [List.countP_append]
        have h2 : (combinationsL (s2.length + 1) t).countP
            (fun c => decide (c = x :: s2)) = 0 := by
          apply List.countP_eq_zero.mpr
          intro c hc
          have hcs := (sublist_length_of_mem_combinationsL _ _ _ hc).1
          simp only [decide_eq_true_eq]
          intro heq
          have hxc : x ∈ c := by
            rw [heq]
            exact List.mem_cons_self x s2
          exact hx (hcs.subset hxc)
        have h3 : ((combinationsL s2.length t).map (fun c => x :: c)).countP
            (fun c => decide (c = x :: s2))
            = (combinationsL s2.length t).countP (fun c => decide (c = s2)) := by
          rw [List.countP_map]
          apply countP_congr_mem
          intro c _
          show decide (x :: c = x :: s2) = decide (c = s2)
          by_cases hcs2 : c = s2
          · rw [hcs2]
            simp
          · have hne2 : ¬(x :: c = x :: s2) := fun hh => hcs2 (List.cons.inj hh).2
            rw [decide_eq_false hcs2, decide_eq_false hne2]
        rw [h3, h2, ih hndt hsub2]

theorem mem_reachN_of_mem {G : Graph V} {x : V} :
    ∀ (n : ℕ) {s : List V}, x ∈ s → x ∈ reachN G n s := by
  intro n
  induction n with
  | zero => intro s hx; exact hx
  | succ n ih => intro s hx; exact ih (List.mem_append_left _ hx)

theorem is_connected_of_singleton {G : Graph V} {x : V} (h : G.vertices = [x]) :
    is_connected G = true := by
  rw [is_connected_cons G x [] h, h]
  simp only [List.all_cons, List.all_nil, Bool.and_true]
  exact decide_eq_true (mem_reachN_of_mem _ (List.mem_cons_self x []))

/-- The induced subgraph has precisely the adjacency of `G` restricted to
the chosen subset. -/
theorem adjB_inducedSubgraph (G : Graph V) (s : List V) (u v : V) :
    adjB (inducedSubgraph G s) u v
      = (adjB G u v && decide (u ∈ s) && decide (v ∈ s)) := by
  cases h : adjB G u v && decide (u ∈ s) && decide (v ∈ s) with
  | true =>
    simp only [Bool.and_eq_true, decide_eq_true_eq] at h
    rcases h with ⟨⟨hadj, hu⟩, hv⟩
    rcases adjB_true_elim hadj with hm | hm
    · exact adjB_true_left (List.mem_filter.mpr ⟨hm, by simp [hu, hv]⟩)
    · exact adjB_true_right (List.mem_filter.mpr ⟨hm, by simp [hu, hv]⟩)
  | false =>
    cases hq : adjB (inducedSubgraph G s) u v with
    | false => rfl
    | true =>
      rcases adjB_true_elim hq with hm | hm
      · have h1 := List.mem_filter.mp hm
        have h2 : (decide (u ∈ s) && decide (v ∈ s)) = true := h1.2
        simp only [Bool.and_eq_true] at h2
        have h3 : adjB G u v = true := adjB_true_left h1.1
        rw [h3, h2.1, h2.2] at h
        simp at h
      · have h1 := List.mem_filter.mp hm
        have h2 : (decide (v ∈ s) && decide (u ∈ s)) = true := h1.2
        simp only [Bool.and_eq_true] at h2
        have h3 : adjB G u v = true := adjB_true_right h1.1
        rw [h3, h2.1, h2.2] at h
        simp at h

/-- C4: the extractor returns exactly the connected induced subgraphs of
`size` vertices containing `vertex`: each result arises from a unique
vertex subset, is connected, contains the vertex, and carries all the
edges of `G` inside the subset, and each valid subset contributes exactly
one entry. -/
theorem find_subgraphs_spec (G : Graph V) (size : ℕ) (vertex : V)
    (hnd : G.vertices.Nodup) (hpos : 0 < size) :
    SubgraphSpec G size vertex := by
  constructor
  · intro S hS
    unfold find_subgraphs_containing_vertex at hS
    rcases List.mem_filterMap.mp hS with ⟨s, hsmem, hf⟩
    rcases sublist_length_of_mem_combinationsL _ _ _ hsmem with ⟨hsub, hlen⟩
    by_cases hv : vertex ∈ s
    · rw [if_pos hv] at hf
      by_cases h1 : (inducedSubgraph G s).vertices.length = 1
      · rw [if_pos h1] at hf
        have hfS : S = inducedSubgraph G s := (Option.some.inj hf).symm
        refine ⟨s, hsub, hlen, hv, hfS, ?_, ?_⟩
        · rw [hfS]
          cases hs1 : (inducedSubgraph G s).vertices with
          | nil => rw [hs1] at h1; exact absurd h1 (by simp)
          | cons a as =>
            cases as with
            | nil => exact is_connected_of_singleton hs1
            | cons b bs => rw [hs1] at h1; exact absurd h1 (by simp)
        · intro u v
          rw [hfS]
          exact adjB_inducedSubgraph G s u v
      · rw [if_neg h1] at hf
        by_cases h2 : is_connected (inducedSubgraph G s) = true
        · rw [if_pos h2] at hf
          have hfS : S = inducedSubgraph G s := (Option.some.inj hf).symm
          refine ⟨s, hsub, hlen, hv, hfS, by rw [hfS]; exact h2, ?_⟩
          intro u v
          rw [hfS]
          exact adjB_inducedSubgraph G s u v
        · rw [if_neg h2] at hf
          exact absurd hf (by simp)
    · rw [if_neg hv] at hf
      exact absurd hf (by simp)
  · intro s hsub hlen hv hcon
    unfold find_subgraphs_containing_vertex
    rw [countP_filterMap]
    have hpt : ∀ c ∈ combinationsL size G.vertices,
        (((if vertex ∈ c then
            if (inducedSubgraph G c).vertices.length = 1 then some (inducedSubgraph G c)
            else if is_connected (inducedSubgraph G c) then some (inducedSubgraph G c)
            else none
          else none).map (fun S => decide (S.vertices = s))).getD false)
          = decide (c = s) := by
      intro c _
      by_cases hcs : c = s
      · subst hcs
        rw [if_pos hv]
        by_cases h1 : (inducedSubgraph G c).vertices.length = 1
        · rw [if_pos h1]
          simp [inducedSubgraph]
        · rw [if_neg h1, if_pos hcon]
          simp [inducedSubgraph]
      · rw [decide_eq_false hcs]
        by_cases hvc : vertex ∈ c
        · rw [if_pos hvc]
          by_cases h1 : (inducedSubgraph G c).vertices.length = 1
          · rw [if_pos h1]
            simp [inducedSubgraph, hcs]
          · rw [if_neg h1]
            by_cases h2 : is_connected (inducedSubgraph G c) = true
            · rw [if_pos h2]
              simp [inducedSubgraph, hcs]
            · rw [if_neg h2]
              rfl
        · rw [if_neg hvc]
          rfl
    rw [countP_congr_mem hpt]
    have hsz : size = s.length := hlen.symm
    subst hsz
    exact countP_combinationsL hnd hsub

/-- Witness for C4: the triangle on `[0, 1, 2]` with size 2 and vertex 0. -/
theorem find_subgraphs_spec_witness :
    SubgraphSpec (⟨[0, 1, 2], [(0, 1), (0, 2), (1, 2)]⟩ : Graph ℕ) 2 0 :=
  find_subgraphs_spec ⟨[0, 1, 2], [(0, 1), (0, 2), (1, 2)]⟩ 2 0 (by decide) (by decide)

end GraphletUtilities
